import Mathlib

/-!
Verification of the MFCC (mel-frequency cepstral coefficient) computation in
python_mfcc.py.  The source is a stateless class with five methods; we embed
each method as a function over exact integers and real numbers: Python ints
become ℤ, Python floats become ℝ, numpy-array indexing becomes List.getD,
Python for-loops accumulating a sum become finite-interval sums, and the math
library calls (sqrt, log, cos, pow, fabs, pi) become their exact real
counterparts.
-/

namespace PythonMFCC

/-- Embedding of getCenterFrequency: the piecewise mel-scale center frequency
of a filter band.  The exponent in the source is filterBand - 14.0, an
integer-valued float, so pow(1.0711703, exponent) is the integer power
1.0711703 ^ (filterBand - 14). -/
noncomputable def getCenterFrequency (filterBand : ℤ) : ℝ :=
  if filterBand = 0 then 0
  else if 1 ≤ filterBand ∧ filterBand ≤ 14 then (200 * (filterBand : ℝ)) / 3
  else (1.0711703 : ℝ) ^ (filterBand - 14) * 1073.4

/-- Embedding of getMagnitudeFactor: the band-dependent magnitude factor. -/
noncomputable def getMagnitudeFactor (filterBand : ℤ) : ℝ :=
  if 1 ≤ filterBand ∧ filterBand ≤ 14 then 0.015
  else if 15 ≤ filterBand ∧ filterBand ≤ 48 then
    2 / (getCenterFrequency (filterBand + 1) - getCenterFrequency (filterBand - 1))
  else 0

/-- Embedding of the local variable boundary in getFilterParameter:
(frequencyBand * samplingRate) / binSize with Python true division. -/
noncomputable def boundary (samplingRate binSize frequencyBand : ℤ) : ℝ :=
  ((frequencyBand * samplingRate : ℤ) : ℝ) / ((binSize : ℤ) : ℝ)

/-- Embedding of getFilterParameter.  In the source the three local variables
are prevCenterFrequency = getCenterFrequency (filterBand + 1),
thisCenterFrequency = getCenterFrequency filterBand and
nextCenterFrequency = getCenterFrequency (filterBand + 1); they are inlined
here, so prev and next appear as the same expression
getCenterFrequency (filterBand + 1).  The four if/elif branches are kept in
source order, with the initial value 0.0 as the fall-through result. -/
noncomputable def getFilterParameter
    (samplingRate binSize frequencyBand filterBand : ℤ) : ℝ :=
  if 0 ≤ boundary samplingRate binSize frequencyBand ∧
      boundary samplingRate binSize frequencyBand < getCenterFrequency (filterBand + 1) then
    0
  else if getCenterFrequency (filterBand + 1) ≤ boundary samplingRate binSize frequencyBand ∧
      boundary samplingRate binSize frequencyBand < getCenterFrequency filterBand then
    ((boundary samplingRate binSize frequencyBand - getCenterFrequency (filterBand + 1)) /
        (getCenterFrequency filterBand - getCenterFrequency (filterBand + 1))) *
      getMagnitudeFactor filterBand
  else if getCenterFrequency filterBand ≤ boundary samplingRate binSize frequencyBand ∧
      boundary samplingRate binSize frequencyBand < getCenterFrequency (filterBand + 1) then
    ((boundary samplingRate binSize frequencyBand - getCenterFrequency (filterBand + 1)) /
        (getCenterFrequency filterBand - getCenterFrequency (filterBand + 1))) *
      getMagnitudeFactor filterBand
  else if getCenterFrequency (filterBand + 1) ≤ boundary samplingRate binSize frequencyBand ∧
      boundary samplingRate binSize frequencyBand < (samplingRate : ℝ) then
    0
  else 0

/-- Embedding of getNormalizationFactor. -/
noncomputable def getNormalizationFactor (numFilters m : ℤ) : ℝ :=
  if m = 0 then Real.sqrt (1 / (numFilters : ℝ))
  else Real.sqrt (2 / (numFilters : ℝ))

/-- Embedding of the inner loop of getCoefficient: the accumulation
for k in range(0, binSize - 1) of fabs(spectralData[k] * filter parameter),
i.e. the sum over the integer interval [0, binSize - 1). -/
noncomputable def innerSum
    (spectralData : List ℝ) (samplingRate binSize filterBand : ℤ) : ℝ :=
  ∑ k ∈ Finset.Ico (0 : ℤ) (binSize - 1),
    |spectralData.getD k.toNat 0 *
      getFilterParameter samplingRate binSize k filterBand|

/-- Embedding of getCoefficient: the early return 0.0 when m >= numFilters,
otherwise the normalization factor times the outer accumulation over
l in range(1, numFilters + 1), where each summand log-compresses the inner
sum (only when it is positive) and multiplies by the cosine basis term. -/
noncomputable def getCoefficient
    (spectralData : List ℝ) (samplingRate numFilters binSize m : ℤ) : ℝ :=
  if numFilters ≤ m then 0
  else
    getNormalizationFactor numFilters m *
      ∑ l ∈ Finset.Icc (1 : ℤ) numFilters,
        (if 0 < innerSum spectralData samplingRate binSize l then
            Real.log (innerSum spectralData samplingRate binSize l)
          else innerSum spectralData samplingRate binSize l) *
          Real.cos ((m : ℝ) * Real.pi / (numFilters : ℝ) * ((l : ℝ) - 0.5))

/-- Branch lemma: the zero branch of getCenterFrequency. -/
lemma getCenterFrequency_zero : getCenterFrequency 0 = 0 := by
  simp [getCenterFrequency]

/-- Branch lemma: the linear branch of getCenterFrequency. -/
lemma getCenterFrequency_linear (l : ℤ) (h1 : 1 ≤ l) (h2 : l ≤ 14) :
    getCenterFrequency l = (200 * (l : ℝ)) / 3 := by
  have hl0 : l ≠ 0 := by omega
  simp [getCenterFrequency, hl0, h1, h2]

/-- Branch lemma: the exponential branch of getCenterFrequency, reached for
every integer outside [0, 14]. -/
lemma getCenterFrequency_exp (l : ℤ) (h : l < 0 ∨ 15 ≤ l) :
    getCenterFrequency l = (1.0711703 : ℝ) ^ (l - 14) * 1073.4 := by
  have hl0 : l ≠ 0 := by omega
  have hlin : ¬(1 ≤ l ∧ l ≤ 14) := by omega
  simp [getCenterFrequency, hl0, hlin]

/-- Center frequencies are never negative, for any integer band index. -/
lemma getCenterFrequency_nonneg (l : ℤ) : 0 ≤ getCenterFrequency l := by
  rcases lt_trichotomy l 0 with h | h | h
  · rw [getCenterFrequency_exp l (Or.inl h)]
    positivity
  · rw [h, getCenterFrequency_zero]
  · rcases le_or_lt l 14 with h14 | h14
    · rw [getCenterFrequency_linear l (by omega) h14]
      have : (0 : ℝ) ≤ (l : ℝ) := by exact_mod_cast h.le
      linarith
    · rw [getCenterFrequency_exp l (Or.inr (by omega))]
      positivity

/-- The inner energy sum is a sum of absolute values, hence nonnegative. -/
lemma innerSum_nonneg (spectralData : List ℝ) (samplingRate binSize filterBand : ℤ) :
    0 ≤ innerSum spectralData samplingRate binSize filterBand := by
  refine Finset.sum_nonneg fun k _ => abs_nonneg _

/-- Spec-side definition for the filter response, written from the four cases
of the specification (sec. 4.3 step 3) read in source order with the first
matching case taken, and 0.0 when no case matches.  As in the specification,
prev and next are both CenterFrequency (filterBand + 1) and the ramp
expressions are scaled by the magnitude factor. -/
noncomputable def filterParameterSpec
    (samplingRate binSize frequencyBand filterBand : ℤ) : ℝ :=
  if boundary samplingRate binSize frequencyBand < getCenterFrequency (filterBand + 1) then
    0
  else if getCenterFrequency (filterBand + 1) ≤ boundary samplingRate binSize frequencyBand ∧
      boundary samplingRate binSize frequencyBand < getCenterFrequency filterBand then
    ((boundary samplingRate binSize frequencyBand - getCenterFrequency (filterBand + 1)) /
        (getCenterFrequency filterBand - getCenterFrequency (filterBand + 1))) *
      getMagnitudeFactor filterBand
  else if getCenterFrequency filterBand ≤ boundary samplingRate binSize frequencyBand ∧
      boundary samplingRate binSize frequencyBand < getCenterFrequency (filterBand + 1) then
    ((boundary samplingRate binSize frequencyBand - getCenterFrequency (filterBand + 1)) /
        (getCenterFrequency filterBand - getCenterFrequency (filterBand + 1))) *
      getMagnitudeFactor filterBand
  else if getCenterFrequency (filterBand + 1) ≤ boundary samplingRate binSize frequencyBand ∧
      boundary samplingRate binSize frequencyBand < (samplingRate : ℝ) then
    0
  else 0

/-- One step of monotonicity: moving to the next filter band never lowers the
center frequency, for every band index at least 0. -/
lemma getCenterFrequency_step (l : ℤ) (h : 0 ≤ l) :
    getCenterFrequency l ≤ getCenterFrequency (l + 1) := by
  rcases eq_or_lt_of_le h with h0 | h1
  · rw [← h0, getCenterFrequency_zero]
    exact getCenterFrequency_nonneg (0 + 1)
  · rcases le_or_lt l 13 with h13 | h13
    · rw [getCenterFrequency_linear l h1 (by omega),
        getCenterFrequency_linear (l + 1) (by omega) (by omega)]
      push_cast
      linarith
    · rcases eq_or_lt_of_le (by omega : (14 : ℤ) ≤ l) with h14 | h14
      · rw [← h14]
        rw [getCenterFrequency_linear 14 (by omega) le_rfl,
          getCenterFrequency_exp (14 + 1) (Or.inr (by norm_num))]
        have he : ((14 : ℤ) + 1 - 14) = 1 := by norm_num
        rw [he, zpow_one]
        norm_num
      · rw [getCenterFrequency_exp l (Or.inr (by omega)),
          getCenterFrequency_exp (l + 1) (Or.inr (by omega))]
        have hexp : (1.0711703 : ℝ) ^ (l - 14) ≤ (1.0711703 : ℝ) ^ (l + 1 - 14) :=
          zpow_le_zpow_right₀ (by norm_num) (by omega)
        nlinarith

/-- Monotonicity of the center frequency on all nonnegative band indices. -/
lemma getCenterFrequency_mono (l1 l2 : ℤ) (h0 : 0 ≤ l1) (h12 : l1 ≤ l2) :
    getCenterFrequency l1 ≤ getCenterFrequency l2 := by
  have H : ∀ n : ℤ, l1 ≤ n → getCenterFrequency l1 ≤ getCenterFrequency n := by
    refine Int.le_induction le_rfl ?_
    intro n hn ih
    exact ih.trans (getCenterFrequency_step n (by omega))
  exact H l2 h12

/-- C3: getCenterFrequency returns 0.0 at band 0, the linear formula
(200.0 * l) / 3.0 on bands 1..14, and the exponential formula
1073.4 * 1.0711703 ^ (l - 14) for every band above 14; every integer input
is accepted, and negative inputs fall through to the exponential branch. -/
theorem getCenterFrequency_cases (l : ℤ) :
    (l = 0 → getCenterFrequency l = 0) ∧
    (1 ≤ l → l ≤ 14 → getCenterFrequency l = (200 * (l : ℝ)) / 3) ∧
    (14 < l → getCenterFrequency l = 1073.4 * (1.0711703 : ℝ) ^ (l - 14)) ∧
    (l < 0 → getCenterFrequency l = 1073.4 * (1.0711703 : ℝ) ^ (l - 14)) := by
  refine ⟨?_, ?_, ?_, ?_⟩
  · rintro rfl; exact getCenterFrequency_zero
  · intro h1 h2; exact getCenterFrequency_linear l h1 h2
  · intro h; rw [getCenterFrequency_exp l (Or.inr (by omega))]; ring
  · intro h; rw [getCenterFrequency_exp l (Or.inl h)]; ring

/-- Witness for C3 at the concrete bands 0, 1, 15 and -1. -/
theorem getCenterFrequency_cases_witness :
    getCenterFrequency 0 = 0 ∧
    getCenterFrequency 1 = (200 * ((1 : ℤ) : ℝ)) / 3 ∧
    getCenterFrequency 15 = 1073.4 * (1.0711703 : ℝ) ^ ((15 : ℤ) - 14) ∧
    getCenterFrequency (-1) = 1073.4 * (1.0711703 : ℝ) ^ ((-1 : ℤ) - 14) :=
  ⟨(getCenterFrequency_cases 0).1 rfl,
   (getCenterFrequency_cases 1).2.1 (by norm_num) (by norm_num),
   (getCenterFrequency_cases 15).2.2.1 (by norm_num),
   (getCenterFrequency_cases (-1)).2.2.2 (by norm_num)⟩

/-- C6: getMagnitudeFactor returns 0.015 on bands 1..14, the inverse-bandwidth
formula 2.0 / (CenterFrequency (l+1) - CenterFrequency (l-1)) on bands 15..48,
and 0.0 for every band outside [1, 48]. -/
theorem getMagnitudeFactor_cases (l : ℤ) :
    (1 ≤ l → l ≤ 14 → getMagnitudeFactor l = 0.015) ∧
    (15 ≤ l → l ≤ 48 → getMagnitudeFactor l =
      2 / (getCenterFrequency (l + 1) - getCenterFrequency (l - 1))) ∧
    (l < 1 ∨ 48 < l → getMagnitudeFactor l = 0) := by
  refine ⟨?_, ?_, ?_⟩
  · intro h1 h2
    simp [getMagnitudeFactor, h1, h2]
  · intro h1 h2
    have h3 : ¬(1 ≤ l ∧ l ≤ 14) := by omega
    simp [getMagnitudeFactor, h3, h1, h2]
  · intro h
    have h3 : ¬(1 ≤ l ∧ l ≤ 14) := by omega
    have h4 : ¬(15 ≤ l ∧ l ≤ 48) := by omega
    simp [getMagnitudeFactor, h3, h4]

/-- Witness for C6 at the concrete bands 1, 20, 0 and 49. -/
theorem getMagnitudeFactor_cases_witness :
    getMagnitudeFactor 1 = 0.015 ∧
    getMagnitudeFactor 20 =
      2 / (getCenterFrequency (20 + 1) - getCenterFrequency (20 - 1)) ∧
    getMagnitudeFactor 0 = 0 ∧
    getMagnitudeFactor 49 = 0 :=
  ⟨(getMagnitudeFactor_cases 1).1 le_rfl (by norm_num),
   (getMagnitudeFactor_cases 20).2.1 (by norm_num) (by norm_num),
   (getMagnitudeFactor_cases 0).2.2 (Or.inl (by norm_num)),
   (getMagnitudeFactor_cases 49).2.2 (Or.inr (by norm_num))⟩

/-- C7: for every positive numFilters, getNormalizationFactor returns
sqrt(1/numFilters) when m = 0 and sqrt(2/numFilters) for any m > 0. -/
theorem getNormalizationFactor_cases (numFilters m : ℤ) (h : 1 ≤ numFilters) :
    (m = 0 → getNormalizationFactor numFilters m = Real.sqrt (1 / (numFilters : ℝ))) ∧
    (0 < m → getNormalizationFactor numFilters m = Real.sqrt (2 / (numFilters : ℝ))) := by
  constructor
  · rintro rfl
    simp [getNormalizationFactor]
  · intro hm
    have hm0 : m ≠ 0 := by omega
    simp [getNormalizationFactor, hm0]

/-- Witness for C7 at numFilters in {1, 16, 48, 256} with m = 0 and m = 1. -/
theorem getNormalizationFactor_cases_witness :
    getNormalizationFactor 1 0 = Real.sqrt (1 / ((1 : ℤ) : ℝ)) ∧
    getNormalizationFactor 1 1 = Real.sqrt (2 / ((1 : ℤ) : ℝ)) ∧
    getNormalizationFactor 16 0 = Real.sqrt (1 / ((16 : ℤ) : ℝ)) ∧
    getNormalizationFactor 16 1 = Real.sqrt (2 / ((16 : ℤ) : ℝ)) ∧
    getNormalizationFactor 48 0 = Real.sqrt (1 / ((48 : ℤ) : ℝ)) ∧
    getNormalizationFactor 48 1 = Real.sqrt (2 / ((48 : ℤ) : ℝ)) ∧
    getNormalizationFactor 256 0 = Real.sqrt (1 / ((256 : ℤ) : ℝ)) ∧
    getNormalizationFactor 256 1 = Real.sqrt (2 / ((256 : ℤ) : ℝ)) :=
  ⟨(getNormalizationFactor_cases 1 0 le_rfl).1 rfl,
   (getNormalizationFactor_cases 1 1 le_rfl).2 one_pos,
   (getNormalizationFactor_cases 16 0 (by norm_num)).1 rfl,
   (getNormalizationFactor_cases 16 1 (by norm_num)).2 one_pos,
   (getNormalizationFactor_cases 48 0 (by norm_num)).1 rfl,
   (getNormalizationFactor_cases 48 1 (by norm_num)).2 one_pos,
   (getNormalizationFactor_cases 256 0 (by norm_num)).1 rfl,
   (getNormalizationFactor_cases 256 1 (by norm_num)).2 one_pos⟩

/-- C8: getCenterFrequency is monotonically non-decreasing on the integer
band range [0, 62], in particular across the junctions at 0 to 1 and
14 to 15. -/
theorem getCenterFrequency_monotone (l1 l2 : ℤ)
    (h0 : 0 ≤ l1) (h12 : l1 < l2) (h62 : l2 ≤ 62) :
    getCenterFrequency l1 ≤ getCenterFrequency l2 :=
  getCenterFrequency_mono l1 l2 h0 h12.le

/-- Witness for C8 across both junctions, 0 to 1 and 14 to 15. -/
theorem getCenterFrequency_monotone_witness :
    getCenterFrequency 0 ≤ getCenterFrequency 1 ∧
    getCenterFrequency 14 ≤ getCenterFrequency 15 :=
  ⟨getCenterFrequency_monotone 0 1 le_rfl (by norm_num) (by norm_num),
   getCenterFrequency_monotone 14 15 (by norm_num) (by norm_num) (by norm_num)⟩

/-- Value lemma used at the C2 counterexample input. -/
lemma boundary_100_1_1 : boundary 100 1 1 = 100 := by
  norm_num [boundary]

/-- Value lemma: center frequency of band 1. -/
lemma getCenterFrequency_one : getCenterFrequency 1 = 200 / 3 := by
  rw [getCenterFrequency_linear 1 le_rfl (by norm_num)]
  norm_num

/-- Value lemma: center frequency of band 2, stated for the index written
as 1 + 1 so it matches the prev and next expressions. -/
lemma getCenterFrequency_two : getCenterFrequency (1 + 1) = 400 / 3 := by
  rw [getCenterFrequency_linear (1 + 1) (by norm_num) (by norm_num)]
  norm_num

/-- Value lemma: magnitude factor of band 1. -/
lemma getMagnitudeFactor_one : getMagnitudeFactor 1 = 0.015 := by
  norm_num [getMagnitudeFactor]

/-- Counterexample to C2 read as a set of case equations: with
samplingRate = 100, binSize = 1, bin index k = 1 and filter band l = 1 the
boundary is 100 Hz, which lies in the third case interval
[CenterFrequency l, CenterFrequency (l+1)), yet getFilterParameter returns
0.0 (the first source branch fires because boundary < prevCenterFrequency
and prev = next), not the ramp value prescribed by the third case, which is
0.0075 there. -/
theorem getFilterParameter_claim_counterexample :
    getCenterFrequency 1 ≤ boundary 100 1 1 ∧
    boundary 100 1 1 < getCenterFrequency (1 + 1) ∧
    getFilterParameter 100 1 1 1 = 0 ∧
    ((boundary 100 1 1 - getCenterFrequency (1 + 1)) /
        (getCenterFrequency 1 - getCenterFrequency (1 + 1))) *
      getMagnitudeFactor 1 ≠ 0 := by
  refine ⟨?_, ?_, ?_, ?_⟩
  · rw [boundary_100_1_1, getCenterFrequency_one]
    norm_num
  · rw [boundary_100_1_1, getCenterFrequency_two]
    norm_num
  · unfold getFilterParameter
    rw [if_pos ⟨by rw [boundary_100_1_1]; norm_num,
      by rw [boundary_100_1_1, getCenterFrequency_two]; norm_num⟩]
  · rw [boundary_100_1_1, getCenterFrequency_one, getCenterFrequency_two,
      getMagnitudeFactor_one]
    norm_num

/-- C2 as amended: the four cases hold when read as an ordered branch chain
with the first matching case taken and 0.0 otherwise; equivalently
getFilterParameter agrees everywhere with filterParameterSpec.  In
particular, since prev = next = CenterFrequency (filterBand + 1), the third
case is unreachable and boundaries in [CenterFrequency filterBand,
CenterFrequency (filterBand + 1)) yield 0.0 through the first case. -/
theorem getFilterParameter_eq_spec
    (samplingRate binSize frequencyBand filterBand : ℤ) :
    getFilterParameter samplingRate binSize frequencyBand filterBand =
      filterParameterSpec samplingRate binSize frequencyBand filterBand := by
  have hp : 0 ≤ getCenterFrequency (filterBand + 1) := getCenterFrequency_nonneg _
  have ht : 0 ≤ getCenterFrequency filterBand := getCenterFrequency_nonneg _
  unfold getFilterParameter filterParameterSpec
  rcases lt_or_le (boundary samplingRate binSize frequencyBand)
      (getCenterFrequency (filterBand + 1)) with hbp | hbp
  · rcases le_or_lt 0 (boundary samplingRate binSize frequencyBand) with hb0 | hb0
    · rw [if_pos ⟨hb0, hbp⟩, if_pos hbp]
    · rw [if_neg (fun hA => absurd hA.1 (not_le.mpr hb0)),
        if_neg (fun hC => absurd (hp.trans hC.1) (not_le.mpr hb0)),
        if_neg (fun hD => absurd (ht.trans hD.1) (not_le.mpr hb0)),
        if_neg (fun hE => absurd (hp.trans hE.1) (not_le.mpr hb0)),
        if_pos hbp]
  · rw [if_neg (fun hA => absurd hA.2 (not_lt.mpr hbp)),
      if_neg (not_lt.mpr hbp)]

/-- Helper: indexing with default 0 into an all-zero list gives 0. -/
lemma getD_eq_zero (xs : List ℝ) (hz : ∀ x ∈ xs, x = 0) (n : ℕ) :
    xs.getD n 0 = 0 := by
  induction xs generalizing n with
  | nil => simp [List.getD]
  | cons a tl ih =>
    cases n with
    | zero => simpa using hz a (by simp)
    | succ k =>
      simp only [List.getD_cons_succ]
      exact ih (fun x hx => hz x (by simp [hx])) k

/-- C5: whenever m is at least numFilters, getCoefficient takes the early
return and yields exactly 0.0, without reaching the band and bin summation. -/
theorem getCoefficient_sentinel (spectralData : List ℝ)
    (samplingRate numFilters binSize m : ℤ) (hm : numFilters ≤ m) :
    getCoefficient spectralData samplingRate numFilters binSize m = 0 := by
  unfold getCoefficient
  rw [if_pos hm]

/-- Witness for C5 at m = numFilters and m = numFilters + 5. -/
theorem getCoefficient_sentinel_witness :
    getCoefficient [1, 1, 1] 16000 48 3 48 = 0 ∧
    getCoefficient [1, 1, 1] 16000 48 3 53 = 0 :=
  ⟨getCoefficient_sentinel [1, 1, 1] 16000 48 3 48 le_rfl,
   getCoefficient_sentinel [1, 1, 1] 16000 48 3 53 (by norm_num)⟩

/-- C1: for a valid coefficient index 0 <= m < numFilters, getCoefficient is
the normalization factor times the sum over bands l = 1..numFilters of
L_l * cos((m * pi / numFilters) * (l - 0.5)), where L_l is log(innerSum_l)
when innerSum_l > 0 and 0.0 when innerSum_l <= 0; the log is only ever
applied to a positive argument. -/
theorem getCoefficient_formula (spectralData : List ℝ)
    (samplingRate numFilters binSize m : ℤ)
    (hnf : 1 ≤ numFilters) (hbs : 1 ≤ binSize)
    (hm0 : 0 ≤ m) (hm : m < numFilters)
    (hlen : (spectralData.length : ℤ) = binSize) :
    getCoefficient spectralData samplingRate numFilters binSize m =
      getNormalizationFactor numFilters m *
        ∑ l ∈ Finset.Icc (1 : ℤ) numFilters,
          (if 0 < innerSum spectralData samplingRate binSize l then
              Real.log (innerSum spectralData samplingRate binSize l)
            else 0) *
            Real.cos ((m : ℝ) * Real.pi / (numFilters : ℝ) * ((l : ℝ) - 0.5)) := by
  unfold getCoefficient
  rw [if_neg (by omega)]
  congr 1
  refine Finset.sum_congr rfl fun l _ => ?_
  by_cases h : 0 < innerSum spectralData samplingRate binSize l
  · rw [if_pos h, if_pos h]
  · rw [if_neg h, if_neg h,
      le_antisymm (not_lt.mp h) (innerSum_nonneg spectralData samplingRate binSize l)]

/-- Witness for C1 at a concrete frame of length 2 with m = 0. -/
theorem getCoefficient_formula_witness :
    getCoefficient [1, 1] 16000 48 2 0 =
      getNormalizationFactor 48 0 *
        ∑ l ∈ Finset.Icc (1 : ℤ) 48,
          (if 0 < innerSum [1, 1] 16000 2 l then
              Real.log (innerSum [1, 1] 16000 2 l)
            else 0) *
            Real.cos (((0 : ℤ) : ℝ) * Real.pi / ((48 : ℤ) : ℝ) * ((l : ℝ) - 0.5)) :=
  getCoefficient_formula [1, 1] 16000 48 2 0 (by norm_num) (by norm_num)
    le_rfl (by norm_num) (by norm_num)

/-- C4: the inner energy sum ranges over bin indices 0..binSize-2 only, so
the last bin binSize-1 is never visited and two frames of length binSize that
agree on indices 0..binSize-2 produce identical coefficients. -/
theorem getCoefficient_ignores_last_bin (d1 d2 : List ℝ)
    (samplingRate numFilters binSize m : ℤ) (hbs : 1 ≤ binSize)
    (hl1 : (d1.length : ℤ) = binSize) (hl2 : (d2.length : ℤ) = binSize)
    (hagree : ∀ k : ℕ, (k : ℤ) < binSize - 1 → d1.getD k 0 = d2.getD k 0) :
    (∀ l : ℤ, innerSum d1 samplingRate binSize l =
      ∑ k ∈ Finset.Icc (0 : ℤ) (binSize - 2),
        |d1.getD k.toNat 0 * getFilterParameter samplingRate binSize k l|) ∧
    getCoefficient d1 samplingRate numFilters binSize m =
      getCoefficient d2 samplingRate numFilters binSize m := by
  have hIcc : Finset.Ico (0 : ℤ) (binSize - 1) = Finset.Icc 0 (binSize - 2) := by
    ext x
    simp only [Finset.mem_Ico, Finset.mem_Icc]
    omega
  constructor
  · intro l
    unfold innerSum
    rw [hIcc]
  · have hinner : ∀ l : ℤ, innerSum d1 samplingRate binSize l =
        innerSum d2 samplingRate binSize l := by
      intro l
      unfold innerSum
      refine Finset.sum_congr rfl fun k hk => ?_
      rw [Finset.mem_Ico] at hk
      have hd : d1.getD k.toNat 0 = d2.getD k.toNat 0 := by
        apply hagree
        rw [Int.toNat_of_nonneg hk.1]
        exact hk.2
      rw [hd]
    unfold getCoefficient
    by_cases hm : numFilters ≤ m
    · rw [if_pos hm, if_pos hm]
    · rw [if_neg hm, if_neg hm]
      congr 1
      refine Finset.sum_congr rfl fun l _ => ?_
      rw [hinner l]

/-- Witness for C4: frames of length 2 differing only in the last bin give
the same coefficient. -/
theorem getCoefficient_ignores_last_bin_witness :
    getCoefficient [1, 2] 4 1 2 0 = getCoefficient [1, 3] 4 1 2 0 :=
  (getCoefficient_ignores_last_bin [1, 2] [1, 3] 4 1 2 0 (by norm_num)
    (by norm_num) (by norm_num)
    (fun k hk => by
      have hk0 : k = 0 := by omega
      subst hk0
      rfl)).2

/-- C9: on an all-zero spectral frame every inner sum is 0, the log clamp
leaves it at 0.0, and getCoefficient returns 0.0 for every m. -/
theorem getCoefficient_zero_data (spectralData : List ℝ)
    (samplingRate numFilters binSize m : ℤ)
    (hnf : 1 ≤ numFilters) (hbs : 1 ≤ binSize)
    (hlen : (spectralData.length : ℤ) = binSize)
    (hz : ∀ x ∈ spectralData, x = 0) :
    getCoefficient spectralData samplingRate numFilters binSize m = 0 := by
  have hin : ∀ l : ℤ, innerSum spectralData samplingRate binSize l = 0 := by
    intro l
    unfold innerSum
    refine Finset.sum_eq_zero fun k _ => ?_
    rw [getD_eq_zero spectralData hz k.toNat, zero_mul, abs_zero]
  unfold getCoefficient
  by_cases hm : numFilters ≤ m
  · rw [if_pos hm]
  · rw [if_neg hm]
    have hsum : ∑ l ∈ Finset.Icc (1 : ℤ) numFilters,
        (if 0 < innerSum spectralData samplingRate binSize l then
            Real.log (innerSum spectralData samplingRate binSize l)
          else innerSum spectralData samplingRate binSize l) *
          Real.cos ((m : ℝ) * Real.pi / (numFilters : ℝ) * ((l : ℝ) - 0.5)) = 0 :=
      Finset.sum_eq_zero fun l _ => by rw [hin l]; simp
    rw [hsum, mul_zero]

/-- Witness for C9 at an all-zero frame of length 3 with m = 5. -/
theorem getCoefficient_zero_data_witness :
    getCoefficient [0, 0, 0] 16000 48 3 5 = 0 :=
  getCoefficient_zero_data [0, 0, 0] 16000 48 3 5 (by norm_num) (by norm_num)
    (by norm_num) (fun x hx => by simpa using hx)

/-- C10: a negative m passes the guard, which only checks m >= numFilters;
the normalization factor is sqrt(2/numFilters) since m is nonzero, and the
full band and bin summation is evaluated. -/
theorem getCoefficient_negative_m (spectralData : List ℝ)
    (samplingRate numFilters binSize m : ℤ)
    (hm : m < 0) (hnf : 1 ≤ numFilters) :
    getCoefficient spectralData samplingRate numFilters binSize m =
      Real.sqrt (2 / (numFilters : ℝ)) *
        ∑ l ∈ Finset.Icc (1 : ℤ) numFilters,
          (if 0 < innerSum spectralData samplingRate binSize l then
              Real.log (innerSum spectralData samplingRate binSize l)
            else innerSum spectralData samplingRate binSize l) *
            Real.cos ((m : ℝ) * Real.pi / (numFilters : ℝ) * ((l : ℝ) - 0.5)) := by
  unfold getCoefficient
  rw [if_neg (by omega)]
  unfold getNormalizationFactor
  rw [if_neg (by omega)]

/-- Witness for C10 at m = -1 with a single-bin frame. -/
theorem getCoefficient_negative_m_witness :
    getCoefficient [1] 8 1 1 (-1) =
      Real.sqrt (2 / ((1 : ℤ) : ℝ)) *
        ∑ l ∈ Finset.Icc (1 : ℤ) 1,
          (if 0 < innerSum [1] 8 1 l then
              Real.log (innerSum [1] 8 1 l)
            else innerSum [1] 8 1 l) *
            Real.cos (((-1 : ℤ) : ℝ) * Real.pi / ((1 : ℤ) : ℝ) * ((l : ℝ) - 0.5)) :=
  getCoefficient_negative_m [1] 8 1 1 (-1) (by norm_num) le_rfl

end PythonMFCC
